import Mathlib

/-!
Verification of the azlist child-resource crawler against its specification.

The definitions below are a shallow embedding of the Go sources:
- `listResource`, `runPages`, `processItem` embed `Lister.listResource`
  (the paginated walk of one `(parent, childType)` listing endpoint);
- `ListChildResource` and `crawlLoop` embed `Lister.ListChildResource`
  (the breadth-first expansion over the schema tree);
- `ListExtensionResource` embeds `Lister.ListExtensionResource`;
- `BuildARMSchemaTree` embeds the schema index builder;
- `Lister.List` embeds the orchestrator.

External collaborators (the `armid` id parser, the network pagers, the
resource-group getter) are modelled as explicit environment functions in
`Env`; machine concurrency (the bounded worker pool) is modelled by a
deterministic sequential schedule, which is one admissible completion
order of the pool's serialized collector.
-/

/-- Model of `armid.ResourceGroup`: its canonical string and its name. -/
structure RG where
  rgString : String
  rgName : String
deriving DecidableEq, Repr

/-- Model of `armid.ResourceId` (external library): the canonical string
(`.String()`), the route-scope string (`.RouteScopeString()`), and the
root scope when it is a resource group (`.RootScope()` cast). -/
structure ResourceId where
  canonical : String
  routeScope : String
  rootRG : Option RG
deriving DecidableEq, Repr

/-- A JSON value, as produced by `json.Unmarshal` into `interface{}`. -/
inductive JValue where
  | str : String → JValue
  | num : Int → JValue
  | boolVal : Bool → JValue
  | nullVal : JValue
  | arr : List JValue → JValue
  | obj : List (String × JValue) → JValue

/-- A top-level JSON property document (`map[string]interface{}`),
modelled as an association list with distinct keys. -/
abbrev Props := List (String × JValue)

/-- `azlist.AzureResource`. -/
structure AzureResource where
  Id : ResourceId
  Properties : Props

/-- `azlist.ListError`. -/
structure ListError where
  Endpoint : String
  Version : String
  Message : String
deriving DecidableEq, Repr

/-- `azlist.ListResult`. -/
structure ListResult where
  Resources : List AzureResource
  Errors : List ListError

/-- One element of a listing page (`page.Value`): either a document, or a
value whose marshal/unmarshal round-trip fails with a message. -/
inductive Item where
  | malformed : String → Item
  | doc : Props → Item

/-- One `pager.NextPage` outcome: a page of items, a 404-class response,
or another error. The pager yields these in order until exhausted. -/
inductive PageFetch where
  | ok : List Item → PageFetch
  | notFound : PageFetch
  | pageErr : String → PageFetch

/-- Response of `client.resourceGroup.Get`: the (possibly absent) `ID`
field and the unmarshalled body. -/
structure RGResp where
  respId : Option String
  respProps : Props

/-- The external collaborators: `armid.ParseResourceId`, the
`NewListChildPager(pid, crt, version)` page stream, and the
resource-group getter. -/
structure Env where
  parseId : String → Option ResourceId
  pages : String → String → String → List PageFetch
  rgGet : String → Except String RGResp

def slash : String := "/"

def keyId : String := "id"

def keyManagedBy : String := "managedBy"

/-- Go map lookup on an association list (first binding wins). -/
def alookup {β : Type} (k : String) : List (String × β) → Option β
  | [] => none
  | p :: rest => if p.1 = k then some p.2 else alookup k rest

/-- Go map assignment `m[k] = v`: overwrite in place, or append. -/
def aupsert {β : Type} (k : String) (v : β) : List (String × β) → List (String × β)
  | [] => [(k, v)]
  | p :: rest => if p.1 = k then (k, v) :: rest else p :: aupsert k v rest

/-- Go `delete(m, k)`. -/
def aerase {β : Type} (k : String) : List (String × β) → List (String × β)
  | [] => []
  | p :: rest => if p.1 = k then rest else p :: aerase k rest

/-- Model of Go `strings.ToUpper` (character-wise uppercasing), written
over the character list so that it evaluates by kernel reduction. -/
def upStr (s : String) : String := String.mk (s.data.map Char.toUpper)

/-- The `addListError` closure of `Lister.listResource`: the endpoint is
the uppercased `<parentId>/<childType>`. -/
def mkListError (pid crt version msg : String) : ListError :=
  { Endpoint := upStr (pid ++ slash ++ crt), Version := version, Message := msg }

/-- The id-extraction tail of the per-item loop of `Lister.listResource`:
look up `props["id"]`, require a string, parse it. -/
def extractResource (parseId : String → Option ResourceId) (pid crt version : String)
    (props : Props) : ListResult :=
  match alookup keyId props with
  | none => ⟨[], [mkListError pid crt version ("no resource id found in response")]⟩
  | some (JValue.str s) =>
    match parseId s with
    | none => ⟨[], [mkListError pid crt version ("parsing resource id " ++ s)]⟩
    | some rid => ⟨[{ Id := rid, Properties := props }], []⟩
  | some _ => ⟨[], [mkListError pid crt version ("resource id is not a string")]⟩

/-- One iteration of the per-item loop of `Lister.listResource`: a
marshalling failure records an error; otherwise the extension filter (when
supplied) is consulted before the id is extracted or validated. -/
def processItem (parseId : String → Option ResourceId) (parentProps : Props)
    (filter : Option (Props → Props → Bool)) (pid crt version : String) : Item → ListResult
  | Item.malformed msg => ⟨[], [mkListError pid crt version msg]⟩
  | Item.doc props =>
    match filter with
    | some f =>
      if f parentProps props then extractResource parseId pid crt version props else ⟨[], []⟩
    | none => extractResource parseId pid crt version props

/-- The whole per-page item loop: results and errors in item order. -/
def processItems (parseId : String → Option ResourceId) (parentProps : Props)
    (filter : Option (Props → Props → Bool)) (pid crt version : String)
    (items : List Item) : ListResult :=
  ⟨(items.map fun it => (processItem parseId parentProps filter pid crt version it).Resources).flatten,
   (items.map fun it => (processItem parseId parentProps filter pid crt version it).Errors).flatten⟩

/-- The pagination loop of `Lister.listResource`: a 404 stops the walk
silently, any other page error stops it with one recorded `ListError`,
and an ordinary page is processed item by item. -/
def runPages (parseId : String → Option ResourceId) (parentProps : Props)
    (filter : Option (Props → Props → Bool)) (pid crt version : String) :
    List PageFetch → ListResult
  | [] => ⟨[], []⟩
  | PageFetch.notFound :: _ => ⟨[], []⟩
  | PageFetch.pageErr m :: _ => ⟨[], [mkListError pid crt version m]⟩
  | PageFetch.ok items :: rest =>
    let cur := processItems parseId parentProps filter pid crt version items
    let next := runPages parseId parentProps filter pid crt version rest
    ⟨cur.Resources ++ next.Resources, cur.Errors ++ next.Errors⟩

/-- `Lister.listResource`: walk the listing pages of
`(res.Id, crt, version)` with an optional extension filter. -/
def listResource (env : Env) (res : AzureResource) (crt version : String)
    (filter : Option (Props → Props → Bool)) : ListResult :=
  runPages env.parseId res.Properties filter res.Id.canonical crt version
    (env.pages res.Id.canonical crt version)

/-- C4: a 404-class page response stops pagination contributing no
resources and no errors (in particular a 404 on the first page yields the
empty result), while any other page error stops pagination contributing
no further resources and — when the pages before it all succeeded, so the
walk reaches it — exactly one `ListError` keyed by the uppercased
`<parentId>/<childType>` endpoint. -/
theorem listResource_notFound_silent_pageErr_single
    (parseId : String → Option ResourceId) (pprops : Props)
    (filter : Option (Props → Props → Bool)) (pid crt version m : String)
    (ps rest : List PageFetch) :
    runPages parseId pprops filter pid crt version (ps ++ PageFetch.notFound :: rest)
      = runPages parseId pprops filter pid crt version ps
    ∧ (runPages parseId pprops filter pid crt version (ps ++ PageFetch.pageErr m :: rest)).Resources
      = (runPages parseId pprops filter pid crt version ps).Resources
    ∧ ((∀ p ∈ ps, ∃ its, p = PageFetch.ok its) →
      (runPages parseId pprops filter pid crt version (ps ++ PageFetch.pageErr m :: rest)).Errors
        = (runPages parseId pprops filter pid crt version ps).Errors
          ++ [{ Endpoint := upStr (pid ++ slash ++ crt), Version := version, Message := m }])
    ∧ runPages parseId pprops filter pid crt version (PageFetch.notFound :: rest) = ⟨[], []⟩
    ∧ runPages parseId pprops filter pid crt version (PageFetch.pageErr m :: rest)
      = ⟨[], [{ Endpoint := upStr (pid ++ slash ++ crt), Version := version, Message := m }]⟩
    ∧ (∀ env res, listResource env res crt version filter
        = runPages env.parseId res.Properties filter res.Id.canonical crt version
            (env.pages res.Id.canonical crt version)) := by
  refine ⟨?_, ?_, ?_, rfl, rfl, fun env res => rfl⟩
  · induction ps with
    | nil => rfl
    | cons p ps ih =>
      cases p with
      | ok items => simp only [List.cons_append, runPages, List.append_eq, ih]
      | notFound => rfl
      | pageErr msg => rfl
  · induction ps with
    | nil => rfl
    | cons p ps ih =>
      cases p with
      | ok items => simp only [List.cons_append, runPages, List.append_eq, ih]
      | notFound => rfl
      | pageErr msg => rfl
  · induction ps with
    | nil => intro _; rfl
    | cons p ps ih =>
      intro hok
      obtain ⟨its, rfl⟩ := hok p (List.mem_cons_self p ps)
      have ih2 := ih (fun q hq => hok q (List.mem_cons_of_mem _ hq))
      simp only [List.cons_append, runPages, List.append_eq, ih2, mkListError,
        List.append_assoc]

/-- C10: an item rejected by the extension filter contributes no resource
and no error — the filter runs before the id is extracted or validated —
and deleting such an item from a page leaves the listing result
unchanged. -/
theorem listResource_filter_skips_before_id
    (parseId : String → Option ResourceId) (pprops : Props)
    (f : Props → Props → Bool) (props : Props) (pid crt version : String)
    (h : f pprops props = false) :
    processItem parseId pprops (some f) pid crt version (Item.doc props) = ⟨[], []⟩
    ∧ ∀ (items1 items2 : List Item) (rest : List PageFetch),
      runPages parseId pprops (some f) pid crt version
          (PageFetch.ok (items1 ++ Item.doc props :: items2) :: rest)
        = runPages parseId pprops (some f) pid crt version
            (PageFetch.ok (items1 ++ items2) :: rest) := by
  have hitem : processItem parseId pprops (some f) pid crt version (Item.doc props)
      = ⟨[], []⟩ := by
    simp [processItem, h]
  refine ⟨hitem, fun items1 items2 rest => ?_⟩
  simp only [runPages, processItems, List.map_append, List.map_cons, hitem,
    List.flatten_append, List.flatten_cons, List.append_assoc, List.nil_append]

/-- Sorting relation of `sort.Slice` on resources: ascending canonical id. -/
def leRes (a b : AzureResource) : Prop := a.Id.canonical ≤ b.Id.canonical

instance : DecidableRel leRes :=
  fun a b => inferInstanceAs (Decidable (a.Id.canonical ≤ b.Id.canonical))

instance : IsTotal AzureResource leRes := ⟨fun a b => le_total a.Id.canonical b.Id.canonical⟩

instance : IsTrans AzureResource leRes := ⟨fun _ _ _ hab hbc => le_trans hab hbc⟩

/-- Sorting relation of `sort.Slice` on errors: ascending endpoint. -/
def leErr (a b : ListError) : Prop := a.Endpoint ≤ b.Endpoint

instance : DecidableRel leErr :=
  fun a b => inferInstanceAs (Decidable (a.Endpoint ≤ b.Endpoint))

instance : IsTotal ListError leErr := ⟨fun a b => le_total a.Endpoint b.Endpoint⟩

instance : IsTrans ListError leErr := ⟨fun _ _ _ hab hbc => le_trans hab hbc⟩

/-- The final `sort.Slice` on resources (a deterministic admissible order
of the unstable Go sort; ties cannot arise in the deduped sets). -/
def sortById (l : List AzureResource) : List AzureResource := List.insertionSort leRes l

/-- The final `sort.Slice` on errors. -/
def sortByEndpoint (l : List ListError) : List ListError := List.insertionSort leErr l

/-- One `ARMSchemaEntry` as consumed by the crawler: the `Children` map
(child type segment paired with that child entry's `Versions`) and the
entry's own `Versions`. -/
structure SchemaNode where
  childTypes : List (String × List String)
  Versions : List String

/-- The `ARMSchemaTree` as consumed by the crawler: uppercased full type
path to entry. -/
abbrev SchemaFn := String → Option SchemaNode

/-- `entry.Versions[len(entry.Versions)-1]` (the Go code would panic on
an empty version list; we default, which no claim exercises). -/
def lastVersion (vs : List String) : String := vs.getLastD ""

def slashChar : Char := '/'

/-- Dedup key of a resource: `strings.ToUpper(res.Id.String())`. -/
def upperKey (r : AzureResource) : String := upStr r.Id.canonical

/-- Dedup key of an error: `strings.ToUpper(le.Endpoint)`. -/
def endpKey (e : ListError) : String := upStr e.Endpoint

/-- `Lister.listDirectChildResource`: look up the parent's route scope
(uppercased, leading slashes trimmed) and list every declared child type
at that child's latest version. -/
def listDirectChildResource (env : Env) (schema : SchemaFn) (res : AzureResource) : ListResult :=
  match schema (upStr (res.Id.routeScope.dropWhile fun c => c = slashChar)) with
  | none => ⟨[], []⟩
  | some entry =>
    ⟨(entry.childTypes.map fun ct =>
        (listResource env res ct.1 (lastVersion ct.2) none).Resources).flatten,
     (entry.childTypes.map fun ct =>
        (listResource env res ct.1 (lastVersion ct.2) none).Errors).flatten⟩

/-- One breadth-first level of `Lister.ListChildResource`: the pool's
collector concatenates every task's result (one admissible completion
order). -/
def levelResults (env : Env) (schema : SchemaFn) (frontier : List AzureResource) : ListResult :=
  ⟨(frontier.map fun r => (listDirectChildResource env schema r).Resources).flatten,
   (frontier.map fun r => (listDirectChildResource env schema r).Errors).flatten⟩

/-- Seeding of `rset`: `rset[strings.ToUpper(res.Id.String())] = res`
for each input resource, in order (a Go map assignment overwrites). -/
def seedRSet (rl : List AzureResource) : List (String × AzureResource) :=
  rl.foldl (fun m res => aupsert (upperKey res) res m) []

/-- One step of the post-level merge: skip a discovered resource whose
key is already present, otherwise add it to the set and the new
frontier. -/
def mergeStep (acc : List (String × AzureResource) × List AzureResource) (res : AzureResource) :
    List (String × AzureResource) × List AzureResource :=
  if (alookup (upperKey res) acc.1).isSome then acc
  else (acc.1 ++ [(upperKey res, res)], acc.2 ++ [res])

/-- The post-level merge of `Lister.ListChildResource`: fold the newly
discovered resources into the set, collecting the fresh ones as the next
frontier. -/
def mergeNew (rset : List (String × AzureResource)) (nrl : List AzureResource) :
    List (String × AzureResource) × List AzureResource :=
  nrl.foldl mergeStep (rset, [])

/-- One step of the post-level error merge: skip an error whose uppercase
endpoint is already present. -/
def mergeErrStep (m : List (String × ListError)) (le : ListError) :
    List (String × ListError) :=
  if (alookup (endpKey le) m).isSome then m else m ++ [(endpKey le, le)]

/-- The post-level error merge: first-seen endpoint wins. -/
def mergeErrs (eset : List (String × ListError)) (nel : List ListError) :
    List (String × ListError) :=
  nel.foldl mergeErrStep eset

/-- The `for len(rl) != 0` loop of `Lister.ListChildResource`, with
explicit fuel (`none` = fuel exhausted before the frontier emptied). -/
def crawlLoop (env : Env) (schema : SchemaFn) :
    Nat → List (String × AzureResource) → List (String × ListError) →
    List AzureResource →
    Option (List (String × AzureResource) × List (String × ListError))
  | 0, rset, eset, frontier => if frontier.isEmpty then some (rset, eset) else none
  | fuel + 1, rset, eset, frontier =>
    if frontier.isEmpty then some (rset, eset)
    else
      let lr := levelResults env schema frontier
      let merged := mergeNew rset lr.Resources
      crawlLoop env schema fuel merged.1 (mergeErrs eset lr.Errors) merged.2

/-- `Lister.ListChildResource`: seed the set, run the breadth-first loop,
sort the surviving resources by id and the errors by endpoint. -/
def ListChildResource (env : Env) (schema : SchemaFn) (fuel : Nat)
    (rl : List AzureResource) : Option ListResult :=
  match crawlLoop env schema fuel (seedRSet rl) [] rl with
  | none => none
  | some (rset, eset) =>
    some ⟨sortById (rset.map fun p => p.2), sortByEndpoint (eset.map fun p => p.2)⟩

/-- The keys of an association list are pairwise distinct. -/
def KeysNodup {β : Type} (l : List (String × β)) : Prop := (l.map Prod.fst).Nodup

/-- Every binding's key is the dedup key of its value. -/
def KeyedBy {β : Type} (f : β → String) (l : List (String × β)) : Prop :=
  ∀ p ∈ l, p.1 = f p.2

theorem alookup_append_some {β : Type} {k : String} {v : β} {l1 : List (String × β)}
    (l2 : List (String × β)) (h : alookup k l1 = some v) : alookup k (l1 ++ l2) = some v := by
  induction l1 with
  | nil => simp [alookup] at h
  | cons p rest ih =>
    by_cases hp : p.1 = k
    · simpa [alookup, hp] using h
    · simp only [alookup, hp, if_neg, List.cons_append] at h ⊢
      exact ih h

theorem alookup_append_none {β : Type} {k : String} {l1 : List (String × β)}
    (l2 : List (String × β)) (h : alookup k l1 = none) :
    alookup k (l1 ++ l2) = alookup k l2 := by
  induction l1 with
  | nil => rfl
  | cons p rest ih =>
    by_cases hp : p.1 = k
    · simp [alookup, hp] at h
    · simp only [alookup, hp, if_neg, List.cons_append] at h ⊢
      exact ih h

theorem alookup_none_of_append_none {β : Type} {k : String} {l1 l2 : List (String × β)}
    (h : alookup k (l1 ++ l2) = none) : alookup k l1 = none := by
  induction l1 with
  | nil => rfl
  | cons p rest ih =>
    by_cases hp : p.1 = k
    · simp [alookup, hp] at h
    · simp only [alookup, hp, if_neg, List.cons_append] at h ⊢
      exact ih h

theorem alookup_eq_none_iff {β : Type} {k : String} {l : List (String × β)} :
    alookup k l = none ↔ k ∉ l.map Prod.fst := by
  induction l with
  | nil => simp [alookup]
  | cons p rest ih =>
    by_cases hp : p.1 = k
    · simp [alookup, hp]
    · rw [alookup, if_neg hp]
      simp only [List.map_cons, List.mem_cons, ih]
      constructor
      · intro hn h
        rcases h with h | h
        · exact hp h.symm
        · exact hn h
      · intro hn h
        exact hn (Or.inr h)

theorem alookup_aupsert_self {β : Type} (k : String) (v : β) (l : List (String × β)) :
    alookup k (aupsert k v l) = some v := by
  induction l with
  | nil => simp [aupsert, alookup]
  | cons p rest ih =>
    by_cases hp : p.1 = k
    · rw [aupsert, if_pos hp, alookup, if_pos rfl]
    · rw [aupsert, if_neg hp, alookup, if_neg hp]
      exact ih

theorem mem_aupsert_keys {β : Type} {x k : String} {v : β} {l : List (String × β)}
    (h : x ∈ (aupsert k v l).map Prod.fst) : x ∈ l.map Prod.fst ∨ x = k := by
  induction l with
  | nil =>
    simp only [aupsert, List.map_cons, List.map_nil, List.mem_singleton] at h
    exact Or.inr h
  | cons p rest ih =>
    by_cases hp : p.1 = k
    · rw [aupsert, if_pos hp] at h
      simp only [List.map_cons, List.mem_cons] at h
      rcases h with h | h
      · exact Or.inr h
      · refine Or.inl ?_
        rw [List.map_cons]
        exact List.mem_cons_of_mem _ h
    · rw [aupsert, if_neg hp] at h
      simp only [List.map_cons, List.mem_cons] at h
      rcases h with h | h
      · refine Or.inl ?_
        rw [List.map_cons, h]
        exact List.mem_cons_self _ _
      · rcases ih h with h' | h'
        · refine Or.inl ?_
          rw [List.map_cons]
          exact List.mem_cons_of_mem _ h'
        · exact Or.inr h'

theorem keysNodup_aupsert {β : Type} (k : String) (v : β) (l : List (String × β))
    (h : KeysNodup l) : KeysNodup (aupsert k v l) := by
  induction l with
  | nil => simp [KeysNodup, aupsert]
  | cons p rest ih =>
    simp only [KeysNodup, List.map_cons, List.nodup_cons] at h
    by_cases hp : p.1 = k
    · rw [KeysNodup, aupsert, if_pos hp]
      simp only [List.map_cons, List.nodup_cons]
      exact ⟨fun hmem => h.1 (hp ▸ hmem), h.2⟩
    · rw [KeysNodup, aupsert, if_neg hp]
      simp only [List.map_cons, List.nodup_cons]
      refine ⟨fun hmem => ?_, ih h.2⟩
      rcases mem_aupsert_keys hmem with h' | h'
      · exact h.1 h'
      · exact hp h'

theorem keyedBy_aupsert {β : Type} (f : β → String) (k : String) (v : β)
    (l : List (String × β)) (h : KeyedBy f l) (hk : k = f v) : KeyedBy f (aupsert k v l) := by
  induction l with
  | nil =>
    intro p hp
    rw [aupsert] at hp
    simp only [List.mem_singleton] at hp
    rw [hp]
    exact hk
  | cons q rest ih =>
    intro p hp
    by_cases hq : q.1 = k
    · rw [aupsert, if_pos hq] at hp
      rcases List.mem_cons.mp hp with hp | hp
      · rw [hp]
        exact hk
      · exact h p (List.mem_cons_of_mem _ hp)
    · rw [aupsert, if_neg hq] at hp
      rcases List.mem_cons.mp hp with hp | hp
      · rw [hp]
        exact h q (List.mem_cons_self q rest)
      · exact ih (fun r hr => h r (List.mem_cons_of_mem _ hr)) p hp

theorem keysNodup_append_fresh {β : Type} {l : List (String × β)} {k : String} {v : β}
    (h : KeysNodup l) (hk : alookup k l = none) : KeysNodup (l ++ [(k, v)]) := by
  rw [KeysNodup, List.map_append]
  rw [List.nodup_append]
  refine ⟨h, by simp, ?_⟩
  intro x hx
  simp only [List.map_cons, List.map_nil, List.mem_singleton]
  intro hxk
  exact (alookup_eq_none_iff.mp hk) (hxk ▸ hx)

theorem keyedBy_append {β : Type} {f : β → String} {l : List (String × β)} {k : String} {v : β}
    (h : KeyedBy f l) (hk : k = f v) : KeyedBy f (l ++ [(k, v)]) := by
  intro p hp
  rcases List.mem_append.mp hp with hp | hp
  · exact h p hp
  · simp only [List.mem_singleton] at hp
    rw [hp]
    exact hk

theorem mergeFold_lookup_some {k : String} {v : AzureResource} :
    ∀ (nrl : List AzureResource) (acc : List (String × AzureResource) × List AzureResource),
      alookup k acc.1 = some v → alookup k (List.foldl mergeStep acc nrl).1 = some v := by
  intro nrl
  induction nrl with
  | nil => intro acc h; exact h
  | cons res nrl ih =>
    intro acc h
    rw [List.foldl_cons]
    apply ih
    rw [mergeStep]
    by_cases hc : (alookup (upperKey res) acc.1).isSome
    · rw [if_pos hc]
      exact h
    · rw [if_neg hc]
      exact alookup_append_some _ h

theorem mergeFold_lookup_none :
    ∀ (nrl : List AzureResource) (acc : List (String × AzureResource) × List AzureResource)
      (k : String),
      alookup k (List.foldl mergeStep acc nrl).1 = none → alookup k acc.1 = none := by
  intro nrl
  induction nrl with
  | nil => intro acc k h; exact h
  | cons res nrl ih =>
    intro acc k h
    rw [List.foldl_cons] at h
    have h' := ih _ _ h
    rw [mergeStep] at h'
    by_cases hc : (alookup (upperKey res) acc.1).isSome
    · rwa [if_pos hc] at h'
    · rw [if_neg hc] at h'
      exact alookup_none_of_append_none h'

theorem mergeFold_fresh :
    ∀ (nrl : List AzureResource) (acc : List (String × AzureResource) × List AzureResource)
      (res : AzureResource),
      res ∈ (List.foldl mergeStep acc nrl).2 →
      res ∈ acc.2 ∨ alookup (upperKey res) acc.1 = none := by
  intro nrl
  induction nrl with
  | nil => intro acc res h; exact Or.inl h
  | cons r nrl ih =>
    intro acc res h
    rw [List.foldl_cons] at h
    rcases ih _ _ h with h' | h'
    · rw [mergeStep] at h'
      by_cases hc : (alookup (upperKey r) acc.1).isSome
      · rw [if_pos hc] at h'
        exact Or.inl h'
      · rw [if_neg hc] at h'
        rcases List.mem_append.mp h' with h'' | h''
        · exact Or.inl h''
        · simp only [List.mem_singleton] at h''
          subst h''
          exact Or.inr (Option.not_isSome_iff_eq_none.mp hc)
    · rw [mergeStep] at h'
      by_cases hc : (alookup (upperKey r) acc.1).isSome
      · rw [if_pos hc] at h'
        exact Or.inr h'
      · rw [if_neg hc] at h'
        exact Or.inr (alookup_none_of_append_none h')

theorem mergeFold_sub :
    ∀ (nrl : List AzureResource) (acc : List (String × AzureResource) × List AzureResource)
      (res : AzureResource),
      res ∈ (List.foldl mergeStep acc nrl).2 → res ∈ acc.2 ∨ res ∈ nrl := by
  intro nrl
  induction nrl with
  | nil => intro acc res h; exact Or.inl h
  | cons r nrl ih =>
    intro acc res h
    rw [List.foldl_cons] at h
    rcases ih _ _ h with h' | h'
    · rw [mergeStep] at h'
      by_cases hc : (alookup (upperKey r) acc.1).isSome
      · rw [if_pos hc] at h'
        exact Or.inl h'
      · rw [if_neg hc] at h'
        rcases List.mem_append.mp h' with h'' | h''
        · exact Or.inl h''
        · simp only [List.mem_singleton] at h''
          exact Or.inr (h'' ▸ List.mem_cons_self r nrl)
    · exact Or.inr (List.mem_cons_of_mem _ h')

theorem mergeFold_frontier_some :
    ∀ (nrl : List AzureResource) (acc : List (String × AzureResource) × List AzureResource),
      (∀ r ∈ acc.2, (alookup (upperKey r) acc.1).isSome) →
      ∀ r ∈ (List.foldl mergeStep acc nrl).2,
        (alookup (upperKey r) (List.foldl mergeStep acc nrl).1).isSome := by
  intro nrl
  induction nrl with
  | nil => intro acc hacc r hr; exact hacc r hr
  | cons r0 nrl ih =>
    intro acc hacc r hr
    rw [List.foldl_cons] at hr ⊢
    apply ih
    · intro r' hr'
      rw [mergeStep] at hr' ⊢
      by_cases hc : (alookup (upperKey r0) acc.1).isSome
      · rw [if_pos hc] at hr' ⊢
        exact hacc r' hr'
      · rw [if_neg hc] at hr' ⊢
        simp only
        rcases List.mem_append.mp hr' with h'' | h''
        · obtain ⟨v, hv⟩ := Option.isSome_iff_exists.mp (hacc r' h'')
          rw [alookup_append_some _ hv]
          rfl
        · simp only [List.mem_singleton] at h''
          subst h''
          rw [alookup_append_none _ (Option.not_isSome_iff_eq_none.mp hc)]
          rw [alookup, if_pos rfl]
          rfl
    · exact hr

theorem mergeFold_keys_inv :
    ∀ (nrl : List AzureResource) (acc : List (String × AzureResource) × List AzureResource),
      KeysNodup acc.1 → KeyedBy upperKey acc.1 →
      KeysNodup (List.foldl mergeStep acc nrl).1 ∧
        KeyedBy upperKey (List.foldl mergeStep acc nrl).1 := by
  intro nrl
  induction nrl with
  | nil => intro acc h1 h2; exact ⟨h1, h2⟩
  | cons r nrl ih =>
    intro acc h1 h2
    rw [List.foldl_cons]
    apply ih
    · rw [mergeStep]
      by_cases hc : (alookup (upperKey r) acc.1).isSome
      · rw [if_pos hc]
        exact h1
      · rw [if_neg hc]
        exact keysNodup_append_fresh h1 (Option.not_isSome_iff_eq_none.mp hc)
    · rw [mergeStep]
      by_cases hc : (alookup (upperKey r) acc.1).isSome
      · rw [if_pos hc]
        exact h2
      · rw [if_neg hc]
        exact keyedBy_append h2 rfl

theorem mergeErrs_lookup_some {k : String} {v : ListError} :
    ∀ (nel : List ListError) (eset : List (String × ListError)),
      alookup k eset = some v → alookup k (mergeErrs eset nel) = some v := by
  intro nel
  induction nel with
  | nil => intro eset h; exact h
  | cons le nel ih =>
    intro eset h
    rw [mergeErrs, List.foldl_cons]
    apply ih
    rw [mergeErrStep]
    by_cases hc : (alookup (endpKey le) eset).isSome
    · rw [if_pos hc]
      exact h
    · rw [if_neg hc]
      exact alookup_append_some _ h

theorem mergeErrs_keys_inv :
    ∀ (nel : List ListError) (eset : List (String × ListError)),
      KeysNodup eset → KeyedBy endpKey eset →
      KeysNodup (mergeErrs eset nel) ∧ KeyedBy endpKey (mergeErrs eset nel) := by
  intro nel
  induction nel with
  | nil => intro eset h1 h2; exact ⟨h1, h2⟩
  | cons le nel ih =>
    intro eset h1 h2
    rw [mergeErrs, List.foldl_cons]
    have step : KeysNodup (mergeErrStep eset le) ∧ KeyedBy endpKey (mergeErrStep eset le) := by
      rw [mergeErrStep]
      by_cases hc : (alookup (endpKey le) eset).isSome
      · rw [if_pos hc]
        exact ⟨h1, h2⟩
      · rw [if_neg hc]
        exact ⟨keysNodup_append_fresh h1 (Option.not_isSome_iff_eq_none.mp hc),
          keyedBy_append h2 rfl⟩
    exact ih _ step.1 step.2

theorem seedRSet_keys_inv (rl : List AzureResource) :
    KeysNodup (seedRSet rl) ∧ KeyedBy upperKey (seedRSet rl) := by
  rw [seedRSet]
  have general :
      ∀ (l : List AzureResource) (m : List (String × AzureResource)),
        KeysNodup m → KeyedBy upperKey m →
        KeysNodup (List.foldl (fun m res => aupsert (upperKey res) res m) m l) ∧
          KeyedBy upperKey (List.foldl (fun m res => aupsert (upperKey res) res m) m l) := by
    intro l
    induction l with
    | nil => intro m h1 h2; exact ⟨h1, h2⟩
    | cons r l ih =>
      intro m h1 h2
      rw [List.foldl_cons]
      exact ih _ (keysNodup_aupsert _ _ _ h1) (keyedBy_aupsert _ _ _ _ h2 rfl)
  exact general rl [] (by simp [KeysNodup]) (by intro p hp; cases hp)

theorem crawlLoop_nil_frontier (env : Env) (schema : SchemaFn) :
    ∀ (fuel : Nat) (rset : List (String × AzureResource)) (eset : List (String × ListError)),
      crawlLoop env schema fuel rset eset [] = some (rset, eset) := by
  intro fuel rset eset
  cases fuel with
  | zero => rfl
  | succ n => rfl

theorem crawlLoop_keys_inv (env : Env) (schema : SchemaFn) :
    ∀ (fuel : Nat) (rset : List (String × AzureResource)) (eset : List (String × ListError))
      (frontier : List AzureResource)
      (out : List (String × AzureResource) × List (String × ListError)),
      crawlLoop env schema fuel rset eset frontier = some out →
      KeysNodup rset → KeyedBy upperKey rset → KeysNodup eset → KeyedBy endpKey eset →
      KeysNodup out.1 ∧ KeyedBy upperKey out.1 ∧ KeysNodup out.2 ∧ KeyedBy endpKey out.2 := by
  intro fuel
  induction fuel with
  | zero =>
    intro rset eset frontier out h h1 h2 h3 h4
    rw [crawlLoop] at h
    by_cases hf : frontier.isEmpty
    · rw [if_pos hf] at h
      cases h
      exact ⟨h1, h2, h3, h4⟩
    · rw [if_neg hf] at h
      cases h
  | succ n ih =>
    intro rset eset frontier out h h1 h2 h3 h4
    rw [crawlLoop] at h
    by_cases hf : frontier.isEmpty
    · rw [if_pos hf] at h
      cases h
      exact ⟨h1, h2, h3, h4⟩
    · rw [if_neg hf] at h
      have hm := mergeFold_keys_inv (levelResults env schema frontier).Resources (rset, []) h1 h2
      have he := mergeErrs_keys_inv (levelResults env schema frontier).Errors eset h3 h4
      exact ih _ _ _ _ h hm.1 hm.2 he.1 he.2

theorem filter_length_mono {α : Type} (p q : α → Bool)
    (hmono : ∀ x, q x = true → p x = true) :
    ∀ l : List α, (l.filter q).length ≤ (l.filter p).length := by
  intro l
  induction l with
  | nil => simp
  | cons a l ih =>
    rw [List.filter_cons, List.filter_cons]
    by_cases hq : q a = true
    · rw [if_pos hq, if_pos (hmono a hq)]
      simpa using Nat.succ_le_succ ih
    · rw [if_neg hq]
      by_cases hp : p a = true
      · rw [if_pos hp]
        exact le_trans ih (Nat.le_succ _)
      · rw [if_neg hp]
        exact ih

theorem filter_length_lt {α : Type} (p q : α → Bool)
    (hmono : ∀ x, q x = true → p x = true) (a : α) (hpa : p a = true) (hqa : q a = false) :
    ∀ l : List α, a ∈ l → (l.filter q).length < (l.filter p).length := by
  intro l
  induction l with
  | nil => intro h; cases h
  | cons b l ih =>
    intro hmem
    rw [List.filter_cons, List.filter_cons]
    rcases List.mem_cons.mp hmem with hb | hb
    · subst hb
      rw [if_neg (by rw [hqa]; exact Bool.false_ne_true), if_pos hpa]
      simp only [List.length_cons]
      exact Nat.lt_succ_of_le (filter_length_mono p q hmono l)
    · by_cases hq : q b = true
      · rw [if_pos hq, if_pos (hmono b hq)]
        simp only [List.length_cons]
        exact Nat.succ_lt_succ (ih hb)
      · rw [if_neg hq]
        by_cases hp : p b = true
        · rw [if_pos hp]
          exact Nat.lt_succ_of_lt (ih hb)
        · rw [if_neg hp]
          exact ih hb

/-- The termination measure of the breadth-first loop: how many ids of
the finite backing universe `U` are not yet bound in the result set. -/
def missingCount (U : List String) (rset : List (String × AzureResource)) : Nat :=
  (U.filter fun k => (alookup k rset).isNone).length

theorem levelResults_mem (env : Env) (schema : SchemaFn) (frontier : List AzureResource)
    (res : AzureResource) (h : res ∈ (levelResults env schema frontier).Resources) :
    ∃ r, r ∈ frontier ∧ res ∈ (listDirectChildResource env schema r).Resources := by
  rw [levelResults] at h
  simp only [List.mem_flatten, List.mem_map] at h
  obtain ⟨l, ⟨r, hr, rfl⟩, hres⟩ := h
  exact ⟨r, hr, hres⟩

theorem crawlLoop_total (env : Env) (schema : SchemaFn) (U : List String)
    (hU : ∀ (r res : AzureResource),
      res ∈ (listDirectChildResource env schema r).Resources → upperKey res ∈ U) :
    ∀ (fuel : Nat) (rset : List (String × AzureResource)) (eset : List (String × ListError))
      (frontier : List AzureResource),
      missingCount U rset < fuel →
      (crawlLoop env schema fuel rset eset frontier).isSome := by
  intro fuel
  induction fuel with
  | zero => intro rset eset frontier h; cases Nat.not_lt_zero _ h
  | succ n ih =>
    intro rset eset frontier hlt
    rw [crawlLoop]
    by_cases hf : frontier.isEmpty
    · rw [if_pos hf]
      rfl
    · rw [if_neg hf]
      show (crawlLoop env schema n
        (mergeNew rset (levelResults env schema frontier).Resources).1
        (mergeErrs eset (levelResults env schema frontier).Errors)
        (mergeNew rset (levelResults env schema frontier).Resources).2).isSome
      set lr := levelResults env schema frontier with hlr
      set merged := mergeNew rset lr.Resources with hmerged
      cases hfr : merged.2 with
      | nil =>
        rw [crawlLoop_nil_frontier]
        rfl
      | cons r0 tail =>
        apply ih
        have hr0 : r0 ∈ merged.2 := by
          rw [hfr]
          exact List.mem_cons_self _ _
        have hfresh : alookup (upperKey r0) rset = none := by
          rcases mergeFold_fresh lr.Resources (rset, []) r0 hr0 with h | h
          · cases h
          · exact h
        have hin : (alookup (upperKey r0) merged.1).isSome :=
          mergeFold_frontier_some lr.Resources (rset, []) (by intro r hr; cases hr) r0 hr0
        have hU0 : upperKey r0 ∈ U := by
          rcases mergeFold_sub lr.Resources (rset, []) r0 hr0 with h | h
          · cases h
          · obtain ⟨r, hrmem, hres⟩ := levelResults_mem env schema frontier r0 h
            exact hU r r0 hres
        have hdec : missingCount U merged.1 < missingCount U rset := by
          rw [missingCount, missingCount]
          refine filter_length_lt _ _ ?_ (upperKey r0) ?_ ?_ U hU0
          · intro x hx
            have hx' : alookup x merged.1 = none := Option.isNone_iff_eq_none.mp hx
            have := mergeFold_lookup_none lr.Resources (rset, []) x hx'
            rw [this]
            rfl
          · rw [hfresh]
            rfl
          · obtain ⟨v, hv⟩ := Option.isSome_iff_exists.mp hin
            rw [hv]
            rfl
        have hle : missingCount U rset ≤ n := Nat.lt_succ_iff.mp hlt
        omega

theorem values_map_nodup {β : Type} (f : β → String) (l : List (String × β))
    (h1 : KeysNodup l) (h2 : KeyedBy f l) : ((l.map fun p => p.2).map f).Nodup := by
  rw [List.map_map]
  have heq : (l.map fun p => f p.2) = l.map Prod.fst := by
    apply List.map_congr_left
    intro p hp
    exact (h2 p hp).symm
  have : (l.map (f ∘ fun p => p.2)) = l.map Prod.fst := heq
  rw [this]
  exact h1

theorem sortById_map_nodup (f : AzureResource → String) (vals : List AzureResource)
    (h : (vals.map f).Nodup) : ((sortById vals).map f).Nodup := by
  have hperm : List.Perm (sortById vals) vals := List.perm_insertionSort leRes vals
  exact ((hperm.map f).nodup_iff).mpr h

theorem sortByEndpoint_map_nodup (f : ListError → String) (vals : List ListError)
    (h : (vals.map f).Nodup) : ((sortByEndpoint vals).map f).Nodup := by
  have hperm : List.Perm (sortByEndpoint vals) vals := List.perm_insertionSort leErr vals
  exact ((hperm.map f).nodup_iff).mpr h

/-- The empty backend: no pages anywhere, no parseable ids, no resource
groups. -/
def env0 : Env :=
  { parseId := fun _ => none, pages := fun _ _ _ => [],
    rgGet := fun _ => Except.error ("no resource group backend") }

/-- The empty schema tree. -/
def schema0 : SchemaFn := fun _ => none

def resA : AzureResource :=
  { Id := { canonical := "A", routeScope := "", rootRG := none }, Properties := [] }

def resLowerA : AzureResource :=
  { Id := { canonical := "a", routeScope := "", rootRG := none }, Properties := [] }

/-- C1 (amended): the crawl result never contains two resources with the
same uppercased canonical id nor two errors with the same uppercased
endpoint; a duplicate discovered during the crawl is discarded in favour
of the entry already in the set (first-seen wins, and an existing error
endpoint likewise wins); but among duplicate entries of the input seed
list the last one wins, because seeding is a Go map assignment. -/
theorem ListChildResource_dedup
    (env : Env) (schema : SchemaFn) (fuel : Nat) (rl : List AzureResource) (out : ListResult)
    (hout : ListChildResource env schema fuel rl = some out) :
    (out.Resources.map fun r => upStr r.Id.canonical).Nodup
    ∧ (out.Errors.map fun e => upStr e.Endpoint).Nodup
    ∧ (∀ (rset : List (String × AzureResource)) (nrl : List AzureResource) (k : String)
        (v : AzureResource), alookup k rset = some v → alookup k (mergeNew rset nrl).1 = some v)
    ∧ (∀ (rset : List (String × AzureResource)) (nrl : List AzureResource)
        (res : AzureResource), alookup (upperKey res) rset = none →
        alookup (upperKey res) (mergeNew rset (res :: nrl)).1 = some res)
    ∧ (∀ (eset : List (String × ListError)) (nel : List ListError) (k : String) (v : ListError),
        alookup k eset = some v → alookup k (mergeErrs eset nel) = some v)
    ∧ (∀ (rl0 : List AzureResource) (res : AzureResource),
        alookup (upperKey res) (seedRSet (rl0 ++ [res])) = some res) := by
  have hseed := seedRSet_keys_inv rl
  refine ⟨?_, ?_, ?_, ?_, ?_, ?_⟩
  · unfold ListChildResource at hout
    cases hcl : crawlLoop env schema fuel (seedRSet rl) [] rl with
    | none =>
      rw [hcl] at hout
      cases hout
    | some pr =>
      rw [hcl] at hout
      have hinv := crawlLoop_keys_inv env schema fuel (seedRSet rl) [] rl pr hcl
        hseed.1 hseed.2 (by simp [KeysNodup]) (by intro p hp; cases hp)
      injection hout with hout
      subst hout
      exact sortById_map_nodup _ _ (values_map_nodup upperKey pr.1 hinv.1 hinv.2.1)
  · unfold ListChildResource at hout
    cases hcl : crawlLoop env schema fuel (seedRSet rl) [] rl with
    | none =>
      rw [hcl] at hout
      cases hout
    | some pr =>
      rw [hcl] at hout
      have hinv := crawlLoop_keys_inv env schema fuel (seedRSet rl) [] rl pr hcl
        hseed.1 hseed.2 (by simp [KeysNodup]) (by intro p hp; cases hp)
      injection hout with hout
      subst hout
      exact sortByEndpoint_map_nodup _ _ (values_map_nodup endpKey pr.2 hinv.2.2.1 hinv.2.2.2)
  · intro rset nrl k v h
    exact mergeFold_lookup_some nrl (rset, []) h
  · intro rset nrl res h
    rw [mergeNew, List.foldl_cons]
    have hc : ¬(alookup (upperKey res) rset).isSome = true := by
      rw [h]
      simp
    have hstep : mergeStep (rset, []) res
        = (rset ++ [(upperKey res, res)], [] ++ [res]) := by
      rw [mergeStep, if_neg hc]
    rw [hstep]
    apply mergeFold_lookup_some
    show alookup (upperKey res) (rset ++ [(upperKey res, res)]) = some res
    rw [alookup_append_none _ h, alookup, if_pos rfl]
  · intro eset nel k v h
    exact mergeErrs_lookup_some nel eset h
  · intro rl0 res
    rw [seedRSet, List.foldl_append, List.foldl_cons, List.foldl_nil]
    exact alookup_aupsert_self _ _ _

/-- C1 witness: the dedup theorem applied to the empty crawl. -/
theorem ListChildResource_dedup_witness :
    ((⟨[], []⟩ : ListResult).Resources.map fun r => upStr r.Id.canonical).Nodup :=
  (ListChildResource_dedup env0 schema0 1 [] ⟨[], []⟩ rfl).1

/-- C1 counterexample: two seed resources with the same uppercased
canonical id (distinct spellings). The crawl keeps the later seed, not
the first-seen one, so "first-seen wins" fails for duplicate input
entries. -/
theorem ListChildResource_seed_dup_not_first_wins :
    (ListChildResource env0 schema0 1 [resA, resLowerA]).map
        (fun out => out.Resources.map fun r => r.Id.canonical) = some [("a")]
    ∧ resA.Id.canonical = ("A")
    ∧ resLowerA.Id.canonical = ("a")
    ∧ upperKey resA = upperKey resLowerA := by
  refine ⟨?_, rfl, rfl, by decide⟩
  decide

/-- C2: with a finite universe `U` covering every id the backing data can
produce, the breadth-first loop halts (some fuel suffices), because each
level's next frontier holds only resources whose uppercase canonical id
was not yet in the accumulated result set. -/
theorem ListChildResource_terminates
    (env : Env) (schema : SchemaFn) (rl : List AzureResource) (U : List String)
    (hU : ∀ (r res : AzureResource),
      res ∈ (listDirectChildResource env schema r).Resources → upperKey res ∈ U) :
    (∃ fuel out, ListChildResource env schema fuel rl = some out)
    ∧ (∀ (rset : List (String × AzureResource)) (nrl : List AzureResource)
        (res : AzureResource),
        res ∈ (mergeNew rset nrl).2 → alookup (upperKey res) rset = none) := by
  constructor
  · have h := crawlLoop_total env schema U hU (missingCount U (seedRSet rl) + 1)
      (seedRSet rl) [] rl (Nat.lt_succ_self _)
    obtain ⟨pr, hpr⟩ := Option.isSome_iff_exists.mp h
    refine ⟨missingCount U (seedRSet rl) + 1,
      ⟨sortById (pr.1.map fun p => p.2), sortByEndpoint (pr.2.map fun p => p.2)⟩, ?_⟩
    unfold ListChildResource
    rw [hpr]
  · intro rset nrl res h
    rcases mergeFold_fresh nrl (rset, []) res h with h' | h'
    · cases h'
    · exact h'

/-- C2 witness: termination on a concrete one-seed input over the empty
schema. -/
theorem ListChildResource_terminates_witness :
    ∃ fuel out, ListChildResource env0 schema0 fuel [resA] = some out := by
  have hU : ∀ (r res : AzureResource),
      res ∈ (listDirectChildResource env0 schema0 r).Resources →
        upperKey res ∈ ([] : List String) := by
    intro r res h
    simp [listDirectChildResource, schema0] at h
  exact (ListChildResource_terminates env0 schema0 [resA] [] hU).1

/-- `azlist.ExtensionResource` (field `Type` renamed `rType` and `Filter`
renamed `rFilter`; `Type` is a Lean keyword). -/
structure ExtensionResource where
  rType : String
  rFilter : Option (Props → Props → Bool)

def providersSeg : String := "providers/"

/-- One task queued by `Lister.listExtensionResource`: resolving the
extension type against the schema tree fails the task; otherwise it is a
plain `listResource` at `providers/<type>` with the type's latest version
and the caller's filter. -/
def extOneTask (env : Env) (schema : SchemaFn) (res : AzureResource)
    (rt : ExtensionResource) : Except String ListResult :=
  match schema (upStr rt.rType) with
  | none => Except.error ("no schema entry found for resource type " ++ rt.rType)
  | some entry =>
    Except.ok (listResource env res (providersSeg ++ rt.rType) (lastVersion entry.Versions)
      rt.rFilter)

def concatLR (a b : ListResult) : ListResult := ⟨a.Resources ++ b.Resources, a.Errors ++ b.Errors⟩

/-- `Lister.listExtensionResource` for one parent: one task per requested
extension type, first task error aborting the pool. -/
def extTasksFor (env : Env) (schema : SchemaFn) (res : AzureResource) :
    List ExtensionResource → ListResult → Except String ListResult
  | [], acc => Except.ok acc
  | rt :: rts, acc =>
    match extOneTask env schema res rt with
    | Except.error e => Except.error e
    | Except.ok r => extTasksFor env schema res rts (concatLR acc r)

/-- All extension tasks of `Lister.ListExtensionResource`, parent-major
as submitted, folded through the pool collector. -/
def extAllTasks (env : Env) (schema : SchemaFn) (types : List ExtensionResource) :
    List AzureResource → ListResult → Except String ListResult
  | [], acc => Except.ok acc
  | res :: rest, acc =>
    match extTasksFor env schema res types acc with
    | Except.error e => Except.error e
    | Except.ok acc2 => extAllTasks env schema types rest acc2

/-- `Lister.ListExtensionResource`: with no requested types the input is
returned untouched; otherwise every `(parent, type)` task runs, a task
error aborts, and the discoveries merge into the deduped, sorted set. -/
def ListExtensionResource (env : Env) (schema : SchemaFn) (types : List ExtensionResource)
    (rl : List AzureResource) : Except String (List AzureResource × List ListError) :=
  if types.isEmpty then Except.ok (rl, [])
  else
    match extAllTasks env schema types rl ⟨[], []⟩ with
    | Except.error e => Except.error e
    | Except.ok lr =>
      let merged := mergeNew (seedRSet rl) lr.Resources
      let eset := mergeErrs [] lr.Errors
      Except.ok (sortById (merged.1.map fun p => p.2), sortByEndpoint (eset.map fun p => p.2))

/-- `v != ""` is false exactly on the empty-string value (a Go interface
comparison with an untyped string constant). -/
def isEmptyStrJ : JValue → Bool
  | JValue.str s => s = ("")
  | _ => false

/-- Keep a resource in the managed filter of `Lister.List`: kept unless
its `managedBy` property exists and is non-empty. -/
def managedKeep (res : AzureResource) : Bool :=
  match alookup keyManagedBy res.Properties with
  | some v => isEmptyStrJ v
  | none => true

/-- The `if !l.IncludeManaged { ... }` stage of `Lister.List`. -/
def managedStage (includeManaged : Bool) (rl : List AzureResource) : List AzureResource :=
  if includeManaged then rl else rl.filter managedKeep

/-- One resource's contribution to the resource-group map of
`Lister.List`: fetch the group's descriptor only when its uppercase id is
not yet present; any fetch/parse failure is fatal. -/
def rgStep (env : Env) (rgs : List (String × AzureResource)) (res : AzureResource) :
    Except String (List (String × AzureResource)) :=
  match res.Id.rootRG with
  | none => Except.ok rgs
  | some rg =>
    if (alookup (upStr rg.rgString) rgs).isSome then Except.ok rgs
    else
      match env.rgGet rg.rgName with
      | Except.error e => Except.error e
      | Except.ok resp =>
        match resp.respId with
        | none => Except.error ("unexpected nil ID of rg " ++ rg.rgName)
        | some s =>
          match env.parseId s with
          | none => Except.error ("parsing resource id " ++ s)
          | some rid =>
            Except.ok (rgs ++ [(upStr rg.rgString, { Id := rid, Properties := resp.respProps })])

/-- The resource-group collection loop of `Lister.List`. -/
def collectRGs (env : Env) : List AzureResource → List (String × AzureResource) →
    Except String (List (String × AzureResource))
  | [], rgs => Except.ok rgs
  | res :: rest, rgs =>
    match rgStep env rgs res with
    | Except.error e => Except.error e
    | Except.ok rgs2 => collectRGs env rest rgs2

/-- The resource-group enrichment of `Lister.List`: collect the distinct
groups of the surviving resources, sort them, prepend. -/
def rgStage (env : Env) (rl : List AzureResource) : Except String (List AzureResource) :=
  match collectRGs env rl [] with
  | Except.error e => Except.error e
  | Except.ok rgs => Except.ok (sortById (rgs.map fun p => p.2) ++ rl)

/-- The options of `Lister` consulted by `Lister.List`. -/
structure Opts where
  Recursive : Bool
  IncludeManaged : Bool
  IncludeResourceGroup : Bool
  ExtensionResourceTypes : List ExtensionResource

/-- `Lister.ListTrackedResources` after collection: the seed query's
resources sorted by id (pagination and the ARG transport are external
collaborators; the collected list is the model's input). -/
def ListTrackedResources (collected : List AzureResource) : List AzureResource :=
  sortById collected

/-- The recursive-expansion stage of `Lister.List`. -/
def crawlStage (env : Env) (schema : SchemaFn) (fuel : Nat) (recursive : Bool)
    (rl0 : List AzureResource) : Option ListResult :=
  if recursive then ListChildResource env schema fuel rl0 else some ⟨rl0, []⟩

/-- The resource-group stage of `Lister.List`. -/
def rgStageOpt (env : Env) (includeRG : Bool) (rl1 : List AzureResource) :
    Except String (List AzureResource) :=
  if includeRG then rgStage env rl1 else Except.ok rl1

/-- The extension stage of `Lister.List`: skipped when no types are
requested, otherwise the resolver's output replaces the resource list and
its errors are appended to the crawl errors. -/
def extStage (env : Env) (schema : SchemaFn) (types : List ExtensionResource)
    (rl2 : List AzureResource) (el1 : List ListError) : Except String ListResult :=
  if types.isEmpty then Except.ok ⟨rl2, el1⟩
  else
    match ListExtensionResource env schema types rl2 with
    | Except.error e => Except.error e
    | Except.ok pr => Except.ok ⟨pr.1, el1 ++ pr.2⟩

/-- `Lister.List`: seed query (sorted), optional breadth-first expansion,
managed filter, optional resource-group enrichment, optional extension
resolution (`none` = crawl fuel exhausted, a model artifact; `Except`
carries the Go error return). -/
def ListerList (env : Env) (schema : SchemaFn) (fuel : Nat) (opt : Opts)
    (seedCollected : List AzureResource) : Option (Except String ListResult) :=
  match crawlStage env schema fuel opt.Recursive (ListTrackedResources seedCollected) with
  | none => none
  | some lr =>
    match rgStageOpt env opt.IncludeResourceGroup
        (managedStage opt.IncludeManaged lr.Resources) with
    | Except.error e => some (Except.error e)
    | Except.ok rl2 => some (extStage env schema opt.ExtensionResourceTypes rl2 lr.Errors)

theorem isEmptyStrJ_eq_true_iff (v : JValue) : isEmptyStrJ v = true ↔ v = JValue.str ("") := by
  cases v with
  | str s =>
    simp only [isEmptyStrJ, decide_eq_true_eq, JValue.str.injEq]
  | num n => simp [isEmptyStrJ]
  | boolVal b => simp [isEmptyStrJ]
  | nullVal => simp [isEmptyStrJ]
  | arr xs => simp [isEmptyStrJ]
  | obj fs => simp [isEmptyStrJ]

/-- C9: the managed filter of `Lister.List` keeps a resource exactly when
managed resources are included, or its property document has no
`managedBy` key, or that key's value is the empty string; equivalently it
drops exactly the resources with a non-empty `managedBy` value while the
include-managed option is unset. With no recursion, enrichment, or
extensions, `Lister.List` returns precisely the filter's output. -/
theorem managedStage_keeps_iff
    (includeManaged : Bool) (rl : List AzureResource) (res : AzureResource) :
    (res ∈ managedStage includeManaged rl ↔
      res ∈ rl ∧ (includeManaged = true ∨ managedKeep res = true))
    ∧ (managedKeep res = false ↔
        ∃ v, alookup keyManagedBy res.Properties = some v ∧ v ≠ JValue.str (""))
    ∧ (∀ (env : Env) (schema : SchemaFn) (fuel : Nat) (seeds : List AzureResource),
        ListerList env schema fuel
            { Recursive := false, IncludeManaged := includeManaged,
              IncludeResourceGroup := false, ExtensionResourceTypes := [] } seeds
          = some (Except.ok ⟨managedStage includeManaged (ListTrackedResources seeds), []⟩)) := by
  refine ⟨?_, ?_, ?_⟩
  · rw [managedStage]
    cases includeManaged with
    | true =>
      rw [if_pos rfl]
      simp
    | false =>
      rw [if_neg Bool.false_ne_true]
      rw [List.mem_filter]
      simp
  · rw [managedKeep]
    cases hv : alookup keyManagedBy res.Properties with
    | none =>
      constructor
      · intro h
        cases h
      · intro ⟨v, hv', _⟩
        cases hv'
    | some v =>
      constructor
      · intro h
        refine ⟨v, rfl, fun heq => ?_⟩
        rw [heq] at h
        simp [isEmptyStrJ] at h
      · intro ⟨w, hw, hne⟩
        injection hw with hw
        subst hw
        cases hb : isEmptyStrJ v with
        | false => exact hb
        | true => exact absurd (isEmptyStrJ_eq_true_iff v |>.mp hb) hne
  · intro env schema fuel seeds
    rfl

def extT : ExtensionResource := { rType := "T", rFilter := none }

def optsExt : Opts :=
  { Recursive := false, IncludeManaged := false, IncludeResourceGroup := false,
    ExtensionResourceTypes := [extT] }

/-- C5 counterexample: an unknown extension type with an empty resource
list does not abort — the per-parent task loop never runs, so the schema
lookup never happens and `Lister.List` returns an empty success. -/
theorem ListerList_unknown_ext_empty_input_succeeds :
    ListerList env0 schema0 0 optsExt [] = some (Except.ok ⟨[], []⟩)
    ∧ schema0 (upStr extT.rType) = none := by
  exact ⟨rfl, rfl⟩

theorem extTasksFor_unknown_error (env : Env) (schema : SchemaFn)
    (rt : ExtensionResource) (hmiss : schema (upStr rt.rType) = none) :
    ∀ (types : List ExtensionResource), rt ∈ types →
      ∀ (res : AzureResource) (acc : ListResult),
        ∃ msg, extTasksFor env schema res types acc = Except.error msg := by
  intro types
  induction types with
  | nil => intro h; cases h
  | cons t ts ih =>
    intro hmem res acc
    rcases List.mem_cons.mp hmem with heq | hmem'
    · subst heq
      rw [extTasksFor, extOneTask, hmiss]
      exact ⟨_, rfl⟩
    · rw [extTasksFor]
      cases ht : extOneTask env schema res t with
      | error e => exact ⟨e, rfl⟩
      | ok r => exact ih hmem' res (concatLR acc r)

/-- C5 (amended): an unknown explicitly-requested extension type aborts
the whole `List` operation whenever at least one resource reaches the
extension phase (here: a non-empty seed list, no recursion, managed
resources included, no enrichment); with an empty resource list no schema
lookup is issued and the operation succeeds (see the counterexample). A
parent whose route-scope type is absent from the schema tree during child
crawling contributes nothing and no error. -/
theorem ListerList_unknown_ext_aborts
    (env : Env) (schema : SchemaFn) (types : List ExtensionResource) (rt : ExtensionResource)
    (hrt : rt ∈ types) (hmiss : schema (upStr rt.rType) = none) :
    (∀ rl, rl ≠ [] → ∃ msg, ListExtensionResource env schema types rl = Except.error msg)
    ∧ (∀ (fuel : Nat) (seeds : List AzureResource), seeds ≠ [] →
        ∃ msg, ListerList env schema fuel
          { Recursive := false, IncludeManaged := true, IncludeResourceGroup := false,
            ExtensionResourceTypes := types } seeds = some (Except.error msg))
    ∧ (∀ (res : AzureResource),
        schema (upStr (res.Id.routeScope.dropWhile fun c => c = slashChar)) = none →
        listDirectChildResource env schema res = ⟨[], []⟩) := by
  have htypes_ne : types ≠ [] := by
    intro h
    rw [h] at hrt
    cases hrt
  have htypes : types.isEmpty = false := by
    cases types with
    | nil => exact absurd rfl htypes_ne
    | cons t ts => rfl
  have habort : ∀ rl, rl ≠ [] →
      ∃ msg, ListExtensionResource env schema types rl = Except.error msg := by
    intro rl hrl
    cases rl with
    | nil => exact absurd rfl hrl
    | cons res rest =>
      rw [ListExtensionResource, htypes]
      simp only [Bool.false_eq_true, if_false]
      rw [extAllTasks]
      obtain ⟨msg, hmsg⟩ := extTasksFor_unknown_error env schema rt hmiss types hrt res ⟨[], []⟩
      rw [hmsg]
      exact ⟨msg, rfl⟩
  refine ⟨habort, ?_, ?_⟩
  · intro fuel seeds hseeds
    have hsortne : ListTrackedResources seeds ≠ [] := by
      intro h
      have hlen := congrArg List.length h
      rw [ListTrackedResources, sortById] at hlen
      rw [(List.perm_insertionSort leRes seeds).length_eq] at hlen
      exact hseeds (List.length_eq_zero.mp hlen)
    obtain ⟨msg, hmsg⟩ := habort (ListTrackedResources seeds) hsortne
    refine ⟨msg, ?_⟩
    show some (extStage env schema types (ListTrackedResources seeds) []) = _
    rw [extStage, htypes]
    simp only [Bool.false_eq_true, if_false]
    rw [hmsg]
  · intro res h
    rw [listDirectChildResource, h]

/-- C5 witness: the amended abort applied at a concrete unknown type and
a concrete non-empty input. -/
theorem ListerList_unknown_ext_aborts_witness :
    ∃ msg, ListExtensionResource env0 schema0 [extT] [resA] = Except.error msg :=
  (ListerList_unknown_ext_aborts env0 schema0 [extT] extT (List.mem_singleton.mpr rfl)
    rfl).1 [resA] (List.cons_ne_nil resA [])

theorem sortById_sorted (l : List AzureResource) : List.Sorted leRes (sortById l) :=
  List.sorted_insertionSort leRes l

theorem sortByEndpoint_sorted (l : List ListError) : List.Sorted leErr (sortByEndpoint l) :=
  List.sorted_insertionSort leErr l

theorem managedStage_sorted (b : Bool) (l : List AzureResource)
    (h : List.Sorted leRes l) : List.Sorted leRes (managedStage b l) := by
  rw [managedStage]
  cases b with
  | true => exact h
  | false => exact h.filter managedKeep

theorem ListChildResource_sorted (env : Env) (schema : SchemaFn) (fuel : Nat)
    (rl : List AzureResource) (out : ListResult)
    (h : ListChildResource env schema fuel rl = some out) :
    List.Sorted leRes out.Resources ∧ List.Sorted leErr out.Errors := by
  unfold ListChildResource at h
  cases hcl : crawlLoop env schema fuel (seedRSet rl) [] rl with
  | none =>
    rw [hcl] at h
    cases h
  | some pr =>
    rw [hcl] at h
    injection h with h
    subst h
    exact ⟨sortById_sorted _, sortByEndpoint_sorted _⟩

theorem ListExtensionResource_sorted (env : Env) (schema : SchemaFn)
    (types : List ExtensionResource) (rl : List AzureResource)
    (pr : List AzureResource × List ListError) (htypes : types.isEmpty = false)
    (h : ListExtensionResource env schema types rl = Except.ok pr) :
    List.Sorted leRes pr.1 ∧ List.Sorted leErr pr.2 := by
  rw [ListExtensionResource, htypes] at h
  simp only [Bool.false_eq_true, if_false] at h
  cases ht : extAllTasks env schema types rl ⟨[], []⟩ with
  | error e =>
    rw [ht] at h
    cases h
  | ok lr =>
    rw [ht] at h
    injection h with h
    subst h
    exact ⟨sortById_sorted _, sortByEndpoint_sorted _⟩

theorem collectRGs_keysNodup (env : Env) :
    ∀ (rl : List AzureResource) (rgs out : List (String × AzureResource)),
      collectRGs env rl rgs = Except.ok out → KeysNodup rgs → KeysNodup out := by
  intro rl
  induction rl with
  | nil =>
    intro rgs out h hn
    rw [collectRGs] at h
    injection h with h
    exact h ▸ hn
  | cons res rest ih =>
    intro rgs out h hn
    rw [collectRGs] at h
    cases hstep : rgStep env rgs res with
    | error e =>
      rw [hstep] at h
      cases h
    | ok rgs2 =>
      rw [hstep] at h
      refine ih rgs2 out h ?_
      rw [rgStep] at hstep
      cases hroot : res.Id.rootRG with
      | none =>
        simp only [hroot] at hstep
        injection hstep with hstep
        exact hstep ▸ hn
      | some rg =>
        simp only [hroot] at hstep
        by_cases hc : (alookup (upStr rg.rgString) rgs).isSome
        · rw [if_pos hc] at hstep
          injection hstep with hstep
          exact hstep ▸ hn
        · rw [if_neg hc] at hstep
          cases hget : env.rgGet rg.rgName with
          | error e =>
            simp only [hget] at hstep
            cases hstep
          | ok resp =>
            simp only [hget] at hstep
            cases hid : resp.respId with
            | none =>
              simp only [hid] at hstep
              cases hstep
            | some s =>
              simp only [hid] at hstep
              cases hparse : env.parseId s with
              | none =>
                simp only [hparse] at hstep
                cases hstep
              | some rid =>
                simp only [hparse] at hstep
                injection hstep with hstep
                subst hstep
                exact keysNodup_append_fresh hn (Option.not_isSome_iff_eq_none.mp hc)

theorem rgStage_decomp (env : Env) (rl out : List AzureResource)
    (h : rgStage env rl = Except.ok out) :
    ∃ l1, out = l1 ++ rl ∧ List.Sorted leRes l1 := by
  rw [rgStage] at h
  cases hc : collectRGs env rl [] with
  | error e =>
    rw [hc] at h
    cases h
  | ok rgs =>
    rw [hc] at h
    injection h with h
    exact ⟨sortById (rgs.map fun p => p.2), h.symm, sortById_sorted _⟩

theorem crawlStage_spec (env : Env) (schema : SchemaFn) (fuel : Nat) (b : Bool)
    (rl0 : List AzureResource) (lr : ListResult)
    (h : crawlStage env schema fuel b rl0 = some lr) (h0 : List.Sorted leRes rl0) :
    List.Sorted leRes lr.Resources ∧ List.Sorted leErr lr.Errors
      ∧ (b = false → lr = ⟨rl0, []⟩) := by
  rw [crawlStage] at h
  cases b with
  | true =>
    rw [if_pos rfl] at h
    have hs := ListChildResource_sorted env schema fuel rl0 lr h
    exact ⟨hs.1, hs.2, fun hb => by cases hb⟩
  | false =>
    rw [if_neg Bool.false_ne_true] at h
    injection h with h
    subst h
    exact ⟨h0, List.sorted_nil, fun _ => rfl⟩

theorem rgStageOpt_spec (env : Env) (b : Bool) (rl1 rl2 : List AzureResource)
    (h : rgStageOpt env b rl1 = Except.ok rl2) (_h1 : List.Sorted leRes rl1) :
    (∃ l1, rl2 = l1 ++ rl1 ∧ List.Sorted leRes l1) ∧ (b = false → rl2 = rl1) := by
  rw [rgStageOpt] at h
  cases b with
  | true =>
    rw [if_pos rfl] at h
    obtain ⟨l1, hdec, hs⟩ := rgStage_decomp env rl1 rl2 h
    exact ⟨⟨l1, hdec, hs⟩, fun hb => by cases hb⟩
  | false =>
    rw [if_neg Bool.false_ne_true] at h
    injection h with h
    subst h
    exact ⟨⟨[], rfl, List.sorted_nil⟩, fun _ => rfl⟩

theorem extStage_spec (env : Env) (schema : SchemaFn) (types : List ExtensionResource)
    (rl2 : List AzureResource) (el1 : List ListError) (res : ListResult)
    (h : extStage env schema types rl2 el1 = Except.ok res) :
    (types = [] → res = ⟨rl2, el1⟩)
    ∧ (types ≠ [] →
        List.Sorted leRes res.Resources
        ∧ ∃ e2, res.Errors = el1 ++ e2 ∧ List.Sorted leErr e2) := by
  rw [extStage] at h
  cases types with
  | nil =>
    simp only [List.isEmpty_nil, if_true] at h
    injection h with h
    exact ⟨fun _ => h.symm, fun hne => absurd rfl hne⟩
  | cons t ts =>
    simp only [List.isEmpty_cons, Bool.false_eq_true, if_false] at h
    cases hx : ListExtensionResource env schema (t :: ts) rl2 with
    | error e =>
      rw [hx] at h
      cases h
    | ok pr =>
      rw [hx] at h
      injection h with h
      subst h
      have hs := ListExtensionResource_sorted env schema (t :: ts) rl2 pr rfl hx
      exact ⟨fun hnil => absurd hnil (List.cons_ne_nil t ts), fun _ => ⟨hs.1, pr.2, rfl, hs.2⟩⟩

/-- C3 (amended): a successful `Lister.List` returns resources sorted by
canonical id whenever no resource-group enrichment happens or the
extension phase re-sorts them; with enrichment and no extensions the
resource list is a sorted group block prepended to a sorted remainder.
The error list is sorted whenever only one phase contributes errors
(no recursion, or no extension types); in general it is the sorted crawl
errors followed by the sorted extension errors. Each distinct resource
group is fetched once: the group map binds every uppercase group id at
most once. -/
theorem ListerList_sorted (env : Env) (schema : SchemaFn) (fuel : Nat) (opt : Opts)
    (seeds : List AzureResource) (res : ListResult)
    (hok : ListerList env schema fuel opt seeds = some (Except.ok res)) :
    ((opt.IncludeResourceGroup = false ∨ opt.ExtensionResourceTypes ≠ []) →
      List.Sorted leRes res.Resources)
    ∧ (∃ l1 l2, res.Resources = l1 ++ l2 ∧ List.Sorted leRes l1 ∧ List.Sorted leRes l2)
    ∧ ((opt.Recursive = false ∨ opt.ExtensionResourceTypes = []) →
      List.Sorted leErr res.Errors)
    ∧ (∃ e1 e2, res.Errors = e1 ++ e2 ∧ List.Sorted leErr e1 ∧ List.Sorted leErr e2)
    ∧ (∀ (rl : List AzureResource) (rgs : List (String × AzureResource)),
        collectRGs env rl [] = Except.ok rgs → KeysNodup rgs) := by
  unfold ListerList at hok
  cases h1 : crawlStage env schema fuel opt.Recursive (ListTrackedResources seeds) with
  | none =>
    simp only [h1] at hok
    cases hok
  | some lr =>
    simp only [h1] at hok
    cases h2 : rgStageOpt env opt.IncludeResourceGroup
        (managedStage opt.IncludeManaged lr.Resources) with
    | error e =>
      simp only [h2] at hok
      injection hok with hok
      cases hok
    | ok rl2 =>
      simp only [h2] at hok
      injection hok with hok
      have hlr := crawlStage_spec env schema fuel opt.Recursive (ListTrackedResources seeds)
        lr h1 (sortById_sorted seeds)
      have hrl1 : List.Sorted leRes (managedStage opt.IncludeManaged lr.Resources) :=
        managedStage_sorted _ _ hlr.1
      have hrg := rgStageOpt_spec env opt.IncludeResourceGroup _ rl2 h2 hrl1
      have hext := extStage_spec env schema opt.ExtensionResourceTypes rl2 lr.Errors res hok
      have hrgsNodup : ∀ (rl : List AzureResource) (rgs : List (String × AzureResource)),
          collectRGs env rl [] = Except.ok rgs → KeysNodup rgs := by
        intro rl rgs h
        exact collectRGs_keysNodup env rl [] rgs h (by simp [KeysNodup])
      by_cases htys : opt.ExtensionResourceTypes = []
      · have hres := hext.1 htys
        subst hres
        refine ⟨?_, ?_, ?_, ?_, hrgsNodup⟩
        · intro hcase
          rcases hcase with hrgf | hne
          · exact (hrg.2 hrgf) ▸ hrl1
          · exact absurd htys hne
        · obtain ⟨l1, hdec, hs1⟩ := hrg.1
          exact ⟨l1, managedStage opt.IncludeManaged lr.Resources, hdec, hs1, hrl1⟩
        · intro _
          exact hlr.2.1
        · exact ⟨lr.Errors, [], (List.append_nil _).symm, hlr.2.1, List.sorted_nil⟩
      · have hx := hext.2 htys
        refine ⟨fun _ => hx.1, ⟨res.Resources, [], (List.append_nil _).symm, hx.1,
          List.sorted_nil⟩, ?_, ?_, hrgsNodup⟩
        · intro hcase
          rcases hcase with hrec | htys'
          · obtain ⟨e2, hdec, hs2⟩ := hx.2
            have hlrnil : lr = ⟨ListTrackedResources seeds, []⟩ := hlr.2.2 hrec
            rw [hdec, hlrnil]
            show List.Sorted leErr ([] ++ e2)
            rw [List.nil_append]
            exact hs2
          · exact absurd htys' htys
        · obtain ⟨e2, hdec, hs2⟩ := hx.2
          exact ⟨lr.Errors, e2, hdec, hlr.2.1, hs2⟩

def rgG : RG := { rgString := "G", rgName := "g" }

def resB : AzureResource :=
  { Id := { canonical := "B", routeScope := "", rootRG := some rgG }, Properties := [] }

/-- A backend with one resource group `g` whose descriptor id `Z` sorts
after every seed id. -/
def env3 : Env :=
  { parseId := fun s =>
      if s = ("Z") then some { canonical := "Z", routeScope := "", rootRG := none } else none,
    pages := fun _ _ _ => [],
    rgGet := fun n =>
      if n = ("g") then Except.ok { respId := some ("Z"), respProps := [] }
      else Except.error ("missing resource group") }

def optsRG : Opts :=
  { Recursive := false, IncludeManaged := true, IncludeResourceGroup := true,
    ExtensionResourceTypes := [] }

/-- C3 counterexample: with resource-group enrichment on and no extension
types, the sorted group block is prepended to the sorted resource list,
and the concatenation is not sorted by canonical id — here the result is
`[Z, B]` with `Z > B`. -/
theorem ListerList_rg_prepend_unsorted :
    (ListerList env3 schema0 0 optsRG [resB]).map
        (Except.map fun r => r.Resources.map fun x => x.Id.canonical)
      = some (Except.ok [("Z"), ("B")])
    ∧ ¬ (("Z") : String) ≤ ("B") := by
  refine ⟨rfl, not_le.mpr ?_⟩
  rw [String.lt_iff_toList_lt]
  have hc : ('B' : Char) < 'Z' := by decide
  exact List.Lex.rel hc

/-- C3 witness: the sortedness theorem applied to an empty, option-free
invocation. -/
theorem ListerList_sorted_witness :
    List.Sorted leRes ((⟨[], []⟩ : ListResult).Resources) :=
  (ListerList_sorted env0 schema0 0
    { Recursive := false, IncludeManaged := false, IncludeResourceGroup := false,
      ExtensionResourceTypes := [] } [] ⟨[], []⟩ rfl).1 (Or.inl rfl)

/-- C4 witness: the page-error conjunct applied to a first-page error. -/
theorem listResource_notFound_silent_pageErr_single_witness :
    (runPages (fun _ => none) [] none ("P") ("T") ("V")
        ([] ++ PageFetch.pageErr ("boom") :: [])).Errors
      = (runPages (fun _ => none) [] none ("P") ("T") ("V") []).Errors
        ++ [{ Endpoint := upStr (("P") ++ slash ++ ("T")), Version := ("V"),
              Message := ("boom") }] :=
  (listResource_notFound_silent_pageErr_single (fun _ => none) [] none ("P") ("T") ("V")
    ("boom") [] []).2.2.1 (fun p hp => absurd hp (List.not_mem_nil p))

/-- C10 witness: a rejected item with no id field contributes nothing. -/
theorem listResource_filter_skips_before_id_witness :
    processItem (fun _ => none) [] (some fun _ _ => false) ("P") ("T") ("V") (Item.doc [])
      = ⟨[], []⟩ :=
  (listResource_filter_skips_before_id (fun _ => none) [] (fun _ _ => false) [] ("P") ("T")
    ("V") rfl).1

/-- Go `strings.Split(s, "/")` (the separator is always `"/"` in the
source), written over character lists so that it evaluates by kernel
reduction. -/
def splitChars (sep : Char) : List Char → List (List Char)
  | [] => [[]]
  | c :: rest =>
    if c = sep then [] :: splitChars sep rest
    else
      match splitChars sep rest with
      | [] => [[c]]
      | g :: gs => (c :: g) :: gs

def splitSlash (s : String) : List String := (splitChars slashChar s.data).map String.mk

/-- Go `strings.Join(parts, "/")`. -/
def joinSlash : List String → String
  | [] => ""
  | [x] => x
  | x :: rest => x ++ slash ++ joinSlash rest

/-- Go `strings.HasSuffix(s, "/")`. -/
def endsWithSlash (s : String) : Bool :=
  match s.data.getLast? with
  | some c => c = slashChar
  | none => false

/-- Go `strings.TrimSuffix(s, "/")` (drops one trailing slash). -/
def trimSuffixSlash (s : String) : String :=
  if endsWithSlash s then String.mk s.data.dropLast else s

/-- A kernel-reducible decidability witness for the string order (the
default one recurses on byte iterators, which the kernel cannot unfold). -/
instance (priority := 2000) strDecLE : DecidableRel (fun a b : String => a ≤ b) :=
  fun _ _ => decidable_of_iff _ String.le_iff_toList_le.symm

/-- Go `sort.Strings`: ascending sort. -/
def sortStrings (l : List String) : List String := List.insertionSort (· ≤ ·) l

/-- One `ARMSchemaEntry` of the builder. A Go entry holds pointers to its
children; here `Children` maps a child's last type segment to the
uppercased full type path under which that child entry is stored in the
tree, so pointer identity becomes key identity. -/
structure ARMSchemaEntry where
  Children : List (String × String)
  Versions : List String
deriving DecidableEq, Repr

/-- The builder's `ARMSchemaTree`: uppercased full type path to entry. -/
abbrev ARMSchemaTree := List (String × ARMSchemaEntry)

/-- The validation loop of `BuildARMSchemaTree`: the first key with a
single `/`-segment, if any. -/
def findMalformed : List (String × List String) → Option String
  | [] => none
  | p :: rest => if (splitSlash p.1).length = 1 then some p.1 else findMalformed rest

/-- The trailing-slash keys collected for renaming. -/
def renameKeys (schemas : List (String × List String)) : List String :=
  (schemas.filter fun p => endsWithSlash p.1).map Prod.fst

/-- One renaming step: move/merge the trailing-slash key's version list
into the canonical (trimmed) key — appending and sorting when the
canonical key exists — then delete the trailing-slash key. -/
def renameStep (m : List (String × List String)) (rt : String) : List (String × List String) :=
  let correctRT := trimSuffixSlash rt
  let vs := (alookup rt m).getD []
  let m2 :=
    match alookup correctRT m with
    | none => aupsert correctRT vs m
    | some old => aupsert correctRT (sortStrings (old ++ vs)) m
  aerase rt m2

/-- The whole trailing-slash normalization of `BuildARMSchemaTree`. -/
def normalizeSchemas (schemas : List (String × List String)) : List (String × List String) :=
  (renameKeys schemas).foldl renameStep schemas

/-- One entry processed inside a level pass: create the node at its
uppercased path and, if the parent path is already in the tree, link the
new node under the parent's child-segment key. -/
def levelStep (level : Nat) (t : ARMSchemaTree) (p : String × List String) : ARMSchemaTree :=
  let upperRt := upStr p.1
  let segs := splitSlash upperRt
  if segs.length = level then
    let entry : ARMSchemaEntry := { Children := [], Versions := p.2 }
    let t2 := aupsert upperRt entry t
    let prt := joinSlash (segs.take (level - 1))
    match alookup prt t2 with
    | none => t2
    | some pe =>
      aupsert prt { pe with Children := aupsert (segs.getLastD ("")) upperRt pe.Children } t2
  else t

/-- One `for remains > 0` iteration: process every entry whose uppercased
path has exactly `level` segments, then drop them from the work map. -/
def levelPass (level : Nat) (schemas : List (String × List String)) (t : ARMSchemaTree) :
    List (String × List String) × ARMSchemaTree :=
  (schemas.filter fun p => (splitSlash (upStr p.1)).length ≠ level,
   schemas.foldl (levelStep level) t)

/-- The level loop of `BuildARMSchemaTree`, with fuel (the Go loop runs
until the work map empties; enough fuel reaches the maximal segment
count). -/
def buildLoop : Nat → Nat → List (String × List String) → ARMSchemaTree → ARMSchemaTree
  | 0, _, _, t => t
  | fuel + 1, level, schemas, t =>
    if schemas.isEmpty then t
    else
      let pr := levelPass level schemas t
      buildLoop fuel (level + 1) pr.1 pr.2

def maxSegCount (schemas : List (String × List String)) : Nat :=
  (schemas.map fun p => (splitSlash (upStr p.1)).length).foldr max 0

/-- `BuildARMSchemaTree`: validate every key, normalize trailing-slash
keys, then build level by level starting at two segments. -/
def BuildARMSchemaTree (schemas : List (String × List String)) : Except String ARMSchemaTree :=
  match findMalformed schemas with
  | some rt => Except.error ("malformed resource type: " ++ rt)
  | none =>
    let normalized := normalizeSchemas schemas
    Except.ok (buildLoop (maxSegCount normalized + 1) 2 normalized [])

theorem splitChars_ne_nil (sep : Char) : ∀ l : List Char, splitChars sep l ≠ [] := by
  intro l
  cases l with
  | nil => simp [splitChars]
  | cons c rest =>
    rw [splitChars]
    by_cases hc : c = sep
    · rw [if_pos hc]
      simp
    · rw [if_neg hc]
      cases hsc : splitChars sep rest with
      | nil => simp
      | cons g gs => simp

theorem findMalformed_of_mem :
    ∀ (schemas : List (String × List String)) (k : String) (vs : List String),
      (k, vs) ∈ schemas → (splitSlash k).length = 1 →
      ∃ rt, findMalformed schemas = some rt := by
  intro schemas
  induction schemas with
  | nil => intro k vs h _; cases h
  | cons p rest ih =>
    intro k vs hmem hk
    rw [findMalformed]
    by_cases hp : (splitSlash p.1).length = 1
    · rw [if_pos hp]
      exact ⟨p.1, rfl⟩
    · rw [if_neg hp]
      rcases List.mem_cons.mp hmem with heq | hmem'
      · have hfst : k = p.1 := congrArg Prod.fst heq
        exact absurd (hfst ▸ hk) hp
      · exact ih k vs hmem' hk

/-- C7: a schema key with fewer than two `/`-separated segments makes
`BuildARMSchemaTree` fail with an error; the validation loop runs before
any node is constructed, so no tree is returned. -/
theorem BuildARMSchemaTree_malformed
    (schemas : List (String × List String)) (k : String) (vs : List String)
    (hmem : (k, vs) ∈ schemas) (hk : (splitSlash k).length < 2) :
    ∃ msg, BuildARMSchemaTree schemas = Except.error msg := by
  have hne := splitChars_ne_nil slashChar k.data
  have hlen1 : (splitSlash k).length = 1 := by
    rw [splitSlash, List.length_map]
    rw [splitSlash, List.length_map] at hk
    have hpos : (splitChars slashChar k.data).length ≠ 0 := by
      intro h0
      exact hne (List.length_eq_zero.mp h0)
    omega
  obtain ⟨rt, hrt⟩ := findMalformed_of_mem schemas k vs hmem hlen1
  unfold BuildARMSchemaTree
  rw [hrt]
  exact ⟨_, rfl⟩

/-- C7 witness: the malformed-schema theorem at `{"Foo": ["v1"]}`. -/
theorem BuildARMSchemaTree_malformed_witness :
    ∃ msg, BuildARMSchemaTree [(("Foo"), [("v1")])] = Except.error msg :=
  BuildARMSchemaTree_malformed _ ("Foo") [("v1")] (by decide) (by decide)

theorem alookup_aerase_ne {β : Type} {k kd : String} (l : List (String × β)) (hne : k ≠ kd) :
    alookup k (aerase kd l) = alookup k l := by
  induction l with
  | nil => rfl
  | cons p rest ih =>
    rw [aerase]
    by_cases hp : p.1 = kd
    · rw [if_pos hp, alookup, if_neg (fun h => hne (h.symm.trans hp))]
    · rw [if_neg hp, alookup, alookup]
      by_cases hk2 : p.1 = k
      · rw [if_pos hk2, if_pos hk2]
      · rw [if_neg hk2, if_neg hk2]
        exact ih

theorem alookup_aerase_self {β : Type} {k : String} (l : List (String × β))
    (h : KeysNodup l) : alookup k (aerase k l) = none := by
  induction l with
  | nil => rfl
  | cons p rest ih =>
    rw [aerase]
    simp only [KeysNodup, List.map_cons, List.nodup_cons] at h
    by_cases hp : p.1 = k
    · rw [if_pos hp]
      rw [alookup_eq_none_iff]
      intro hmem
      exact h.1 (hp ▸ hmem)
    · rw [if_neg hp, alookup, if_neg hp]
      exact ih h.2

/-- C6 (amended): when the input holds exactly one legacy trailing-slash
key alongside its canonical key, normalization (which `BuildARMSchemaTree`
runs before any construction) replaces the canonical key's list by the
*sorted concatenation* of the two lists — duplicates are retained, not
removed — and deletes the trailing-slash key. -/
theorem BuildARMSchemaTree_trailing_slash_merge
    (schemas : List (String × List String)) (c : String) (vs1 vs2 : List String)
    (hnodup : KeysNodup schemas)
    (hone : renameKeys schemas = [c ++ slash])
    (hc : alookup c schemas = some vs1)
    (hslash : alookup (c ++ slash) schemas = some vs2)
    (htrim : trimSuffixSlash (c ++ slash) = c)
    (hne2 : c ≠ c ++ slash) :
    alookup c (normalizeSchemas schemas) = some (sortStrings (vs1 ++ vs2))
    ∧ List.Sorted (fun a b : String => a ≤ b) (sortStrings (vs1 ++ vs2))
    ∧ List.Perm (sortStrings (vs1 ++ vs2)) (vs1 ++ vs2)
    ∧ alookup (c ++ slash) (normalizeSchemas schemas) = none
    ∧ (findMalformed schemas = none →
        BuildARMSchemaTree schemas
          = Except.ok (buildLoop (maxSegCount (normalizeSchemas schemas) + 1) 2
              (normalizeSchemas schemas) [])) := by
  have hstep : normalizeSchemas schemas
      = aerase (c ++ slash) (aupsert c (sortStrings (vs1 ++ vs2)) schemas) := by
    rw [normalizeSchemas, hone, List.foldl_cons, List.foldl_nil, renameStep]
    simp only [htrim, hc, hslash, Option.getD_some]
  refine ⟨?_, ?_, ?_, ?_, ?_⟩
  · rw [hstep, alookup_aerase_ne _ hne2, alookup_aupsert_self]
  · exact List.sorted_insertionSort _ _
  · exact List.perm_insertionSort _ _
  · rw [hstep]
    exact alookup_aerase_self _ (keysNodup_aupsert _ _ _ hnodup)
  · intro hval
    unfold BuildARMSchemaTree
    rw [hval]

def cexSchemas : List (String × List String) := [(("A/B"), [("v1")]), (("A/B/"), [("v1")])]

/-- C6 counterexample: merging `A/B/` into `A/B` when both carry `v1`
leaves the duplicate — the merged version list is `[v1, v1]`, sorted but
not deduplicated, and the built tree carries it. -/
theorem BuildARMSchemaTree_merge_not_deduped :
    alookup ("A/B") (normalizeSchemas cexSchemas) = some [("v1"), ("v1")]
    ∧ (BuildARMSchemaTree cexSchemas).toOption.map
        (fun t => (alookup ("A/B") t).map fun e => e.Versions)
      = some (some [("v1"), ("v1")])
    ∧ ¬ ([("v1"), ("v1")] : List String).Nodup := by
  refine ⟨by decide, by decide, by decide⟩

def cexSchemas2 : List (String × List String) := [(("A/B"), [("v2")]), (("A/B/"), [("v1")])]

/-- C6 witness: the merge theorem at a concrete two-key schema. -/
theorem BuildARMSchemaTree_trailing_slash_merge_witness :
    alookup ("A/B") (normalizeSchemas cexSchemas2) = some (sortStrings ([("v2")] ++ [("v1")])) :=
  (BuildARMSchemaTree_trailing_slash_merge cexSchemas2 ("A/B") [("v2")] [("v1")]
    (show (cexSchemas2.map Prod.fst).Nodup by decide) (by decide) (by decide) (by decide)
    (by decide) (by decide)).1

def schemaInputA : List (String × List String) :=
  [(("Microsoft.Network/virtualnetworks"), [("v1"), ("v2")]),
   (("Microsoft.Network/virtualnetworks/subnets"), [("v1"), ("v2")])]

def schemaInputB : List (String × List String) :=
  [(("Microsoft.Network/virtualnetworks/subnets"), [("v1"), ("v2")]),
   (("Microsoft.Network/virtualnetworks"), [("v1"), ("v2")])]

/-- The tree both orderings of the two-key schema build: the subnets
entry is stored at its full uppercased path and the parent's `Children`
references that same path (the model of Go pointer sharing). -/
def vnTree : ARMSchemaTree :=
  [(("MICROSOFT.NETWORK/VIRTUALNETWORKS"),
    { Children := [(("SUBNETS"), ("MICROSOFT.NETWORK/VIRTUALNETWORKS/SUBNETS"))],
      Versions := [("v1"), ("v2")] }),
   (("MICROSOFT.NETWORK/VIRTUALNETWORKS/SUBNETS"),
    { Children := [], Versions := [("v1"), ("v2")] })]

/-- C8: both iteration orders of the two-key schema build the identical
tree, whose top-level `MICROSOFT.NETWORK/VIRTUALNETWORKS` entry has a
`SUBNETS` child referencing the very entry stored at top-level key
`MICROSOFT.NETWORK/VIRTUALNETWORKS/SUBNETS`. -/
theorem BuildARMSchemaTree_deterministic_sharing :
    BuildARMSchemaTree schemaInputA = Except.ok vnTree
    ∧ BuildARMSchemaTree schemaInputB = Except.ok vnTree
    ∧ (alookup ("MICROSOFT.NETWORK/VIRTUALNETWORKS") vnTree).map
        (fun e => alookup ("SUBNETS") e.Children)
      = some (some ("MICROSOFT.NETWORK/VIRTUALNETWORKS/SUBNETS"))
    ∧ alookup ("MICROSOFT.NETWORK/VIRTUALNETWORKS/SUBNETS") vnTree
      = some { Children := [], Versions := [("v1"), ("v2")] } := by
  refine ⟨rfl, rfl, by decide, by decide⟩
